import Mathlib

/-
Verification of the image-layout converters (samples/cxx/common/image_common.c)
and the softmax/argmax post-processing of the MNIST sample
(samples/cxx/mnist/mnist.cpp).

Modelling conventions:
  * C float values are modelled as exact rationals (ℚ); bytes as ℕ.
  * A raw C buffer read through a pointer is modelled as a function ℕ → value;
    a produced buffer of known length n is modelled as the list of its first
    n cells.
  * The imperative write loops of the converters are modelled literally as
    folds of pointwise `Function.update` over the loop ranges, starting from a
    zero-initialised buffer (every cell below the output length is written
    exactly once before being read, so the initial contents are irrelevant).
  * C code whose behaviour is undefined on some input (dereferencing
    std::max_element of an empty range) is modelled as an Option returning
    none there.
-/

/-! ## Generic lemmas: a fold of updates at pairwise distinct indices -/

/-- A fold of updates never touches an index outside the written set. -/
lemma foldl_update_miss {α : Type} (f : ℕ → ℕ) (v : ℕ → α) :
    ∀ (n : ℕ) (b : ℕ → α) (k : ℕ), (∀ j, j < n → f j ≠ k) →
      (List.range n).foldl (fun acc j => Function.update acc (f j) (v j)) b k = b k := by
  intro n
  induction n with
  | zero => intro b k _; simp
  | succ n ih =>
      intro b k hk
      rw [List.range_succ, List.foldl_append]
      simp only [List.foldl_cons, List.foldl_nil]
      rw [Function.update_noteq (hk n (Nat.lt_succ_self n)).symm]
      exact ih b k (fun j hj => hk j (Nat.lt_succ_of_lt hj))

/-- A fold of updates at indices `f j`, injective below `n`, stores `v j0`
    at index `f j0`. -/
lemma foldl_update_hit {α : Type} (f : ℕ → ℕ) (v : ℕ → α) :
    ∀ (n : ℕ) (b : ℕ → α) (j0 : ℕ), j0 < n → (∀ j, j < n → f j = f j0 → j = j0) →
      (List.range n).foldl (fun acc j => Function.update acc (f j) (v j)) b (f j0) = v j0 := by
  intro n
  induction n with
  | zero => intro b j0 h _; omega
  | succ n ih =>
      intro b j0 hj0 hinj
      rw [List.range_succ, List.foldl_append]
      simp only [List.foldl_cons, List.foldl_nil]
      by_cases hcase : j0 = n
      · subst hcase
        rw [Function.update_same]
      · have hne : f j0 ≠ f n := by
          intro hfe
          exact hcase ((hinj n (Nat.lt_succ_self n) hfe.symm).symm)
        rw [Function.update_noteq hne]
        refine ih b j0 (by omega) (fun j hj hejj => hinj j (Nat.lt_succ_of_lt hj) hejj)

/-! ## Index arithmetic for the (outer, inner) ↦ outer*m + inner encoding -/

lemma enc_div (a b m : ℕ) (hb : b < m) : (a * m + b) / m = a := by
  rw [add_comm, Nat.add_mul_div_right b a (show 0 < m by omega), Nat.div_eq_of_lt hb]
  omega

lemma enc_mod (a b m : ℕ) (hb : b < m) : (a * m + b) % m = b := by
  rw [mul_comm, Nat.mul_add_mod]
  exact Nat.mod_eq_of_lt hb

lemma enc_inj {a a' b b' m : ℕ} (hb : b < m) (hb' : b' < m)
    (h : a * m + b = a' * m + b') : a = a' ∧ b = b' := by
  constructor
  · have h1 := congrArg (fun t => t / m) h
    simpa [enc_div a b m hb, enc_div a' b' m hb'] using h1
  · have h2 := congrArg (fun t => t % m) h
    simpa [enc_mod a b m hb, enc_mod a' b' m hb'] using h2

lemma enc_lt {a b m B : ℕ} (ha : a < B) (hb : b < m) : a * m + b < B * m := by
  calc a * m + b < a * m + m := by omega
    _ = (a + 1) * m := by ring
    _ ≤ B * m := Nat.mul_le_mul_right m (by omega)

/-- `getD` of a list built as `(List.range n).map f`. -/
lemma getD_map_range {α : Type} (f : ℕ → α) (n k : ℕ) (d : α) (hk : k < n) :
    ((List.range n).map f).getD k d = f k := by
  rw [List.getD_eq_getElem ((List.range n).map f) d (by simpa using hk)]
  simp

/-! ## hwc_to_chw (image_common.c lines 14–26)

The C routine:
  stride = h*w; output has stride*3 float cells;
  for i in [0,stride): for c in [0,3): output[c*stride+i] = input[i*3+c].
The byte-to-float conversion is the exact ℕ → ℚ cast (every byte value is
exactly representable). -/

/-- Body of the outer pixel loop of hwc_to_chw: for pixel `i` write the three
    cells `output[c*stride+i] = input[i*3+c]`, `c = 0,1,2`. -/
def hwcStep (input : ℕ → ℕ) (stride i : ℕ) (b : ℕ → ℚ) : ℕ → ℚ :=
  (List.range 3).foldl
    (fun acc c => Function.update acc (c * stride + i) ((input (i * 3 + c) : ℕ) : ℚ)) b

/-- The float buffer written by hwc_to_chw's double loop, starting from a
    zero buffer (malloc'ed memory; every cell below 3*stride is overwritten
    before the function returns). -/
def hwcBuf (input : ℕ → ℕ) (stride : ℕ) : ℕ → ℚ :=
  (List.range stride).foldl (fun b i => hwcStep input stride i b) (fun _ => 0)

/-- hwc_to_chw: the output float buffer as a list of its `3*h*w` cells
    (the routine sets `*output_count = stride * 3`). -/
def hwc_to_chw (input : ℕ → ℕ) (h w : ℕ) : List ℚ :=
  (List.range (3 * (h * w))).map (hwcBuf input (h * w))

lemma hwcStep_hit (input : ℕ → ℕ) (stride i : ℕ) (hs : 0 < stride) (b : ℕ → ℚ)
    (c : ℕ) (hc : c < 3) :
    hwcStep input stride i b (c * stride + i) = ((input (i * 3 + c) : ℕ) : ℚ) := by
  refine foldl_update_hit (fun c => c * stride + i) _ 3 b c hc ?_
  intro j hj hejj
  have hejj' : j * stride + i = c * stride + i := hejj
  have h1 : j * stride = c * stride := by omega
  exact Nat.eq_of_mul_eq_mul_right hs h1

lemma hwcStep_miss (input : ℕ → ℕ) (stride i : ℕ) (b : ℕ → ℚ) (k : ℕ)
    (hk : ∀ c, c < 3 → c * stride + i ≠ k) :
    hwcStep input stride i b k = b k :=
  foldl_update_miss (fun c => c * stride + i) _ 3 b k hk

lemma hwcBuf_loop_eval (input : ℕ → ℕ) (stride : ℕ) :
    ∀ (n : ℕ), n ≤ stride → ∀ (b : ℕ → ℚ) (c i : ℕ), c < 3 → i < stride →
      (List.range n).foldl (fun b i => hwcStep input stride i b) b (c * stride + i)
        = if i < n then ((input (i * 3 + c) : ℕ) : ℚ) else b (c * stride + i) := by
  intro n
  induction n with
  | zero =>
      intro _ b c i hc hi
      simp
  | succ n ih =>
      intro hn b c i hc hi
      rw [List.range_succ, List.foldl_append]
      simp only [List.foldl_cons, List.foldl_nil]
      by_cases hin : i = n
      · subst hin
        rw [hwcStep_hit input stride i (by omega) _ c hc]
        simp
      · have hmiss : ∀ c', c' < 3 → c' * stride + n ≠ c * stride + i := by
          intro c' hc' he
          exact hin ((enc_inj (by omega) hi he).2).symm
        rw [hwcStep_miss input stride n _ _ hmiss]
        rw [ih (by omega) b c i hc hi]
        by_cases h2 : i < n
        · rw [if_pos h2, if_pos (by omega)]
        · rw [if_neg h2, if_neg (by omega)]

/-- Closed form of the hwc_to_chw buffer: cell `c*stride+i` holds
    `input (i*3+c)` cast to float. -/
lemma hwcBuf_eval (input : ℕ → ℕ) (stride : ℕ) (c i : ℕ)
    (hc : c < 3) (hi : i < stride) :
    hwcBuf input stride (c * stride + i) = ((input (i * 3 + c) : ℕ) : ℚ) := by
  unfold hwcBuf
  rw [hwcBuf_loop_eval input stride stride le_rfl _ c i hc hi]
  rw [if_pos hi]

/-! ## chw_to_hwc (image_common.c lines 35–49) -/

/-- The clamp-and-truncate of chw_to_hwc's inner loop:
    `if (f < 0.f || f > 255.0f) f = 0;` then `(uint8_t)f`
    (conversion of a float in [0,255] to uint8 truncates toward zero,
    i.e. takes the floor). -/
def byteTrunc (f : ℚ) : ℕ :=
  Int.toNat ⌊if f < 0 ∨ 255 < f then (0 : ℚ) else f⌋

lemma byteTrunc_eq_ite (f : ℚ) :
    byteTrunc f = if f < 0 ∨ 255 < f then 0 else Int.toNat ⌊f⌋ := by
  unfold byteTrunc
  by_cases hf : f < 0 ∨ 255 < f
  · rw [if_pos hf, if_pos hf]
    simp
  · rw [if_neg hf, if_neg hf]

lemma byteTrunc_natCast (n : ℕ) (hn : n ≤ 255) : byteTrunc ((n : ℕ) : ℚ) = n := by
  unfold byteTrunc
  have h1 : ¬(((n : ℕ) : ℚ) < 0 ∨ 255 < ((n : ℕ) : ℚ)) := by
    push_neg
    constructor
    · positivity
    · exact_mod_cast hn
  rw [if_neg h1]
  simp

/-- Body of the outer channel loop of chw_to_hwc: for channel `c` write
    `output[i*3+c] = (uint8_t)clamp(input[c*stride+i])` for every pixel `i`. -/
def chwStep (input : ℕ → ℚ) (stride c : ℕ) (b : ℕ → ℕ) : ℕ → ℕ :=
  (List.range stride).foldl
    (fun acc i => Function.update acc (i * 3 + c) (byteTrunc (input (c * stride + i)))) b

/-- The byte buffer written by chw_to_hwc's double loop. -/
def chwBuf (input : ℕ → ℚ) (stride : ℕ) : ℕ → ℕ :=
  (List.range 3).foldl (fun b c => chwStep input stride c b) (fun _ => 0)

/-- chw_to_hwc: the output byte buffer as a list of its `3*h*w` cells
    (the routine mallocs `stride * 3` bytes and fills them all). -/
def chw_to_hwc (input : ℕ → ℚ) (h w : ℕ) : List ℕ :=
  (List.range (3 * (h * w))).map (chwBuf input (h * w))

lemma chwStep_hit (input : ℕ → ℚ) (stride c : ℕ) (b : ℕ → ℕ)
    (i : ℕ) (hi : i < stride) :
    chwStep input stride c b (i * 3 + c) = byteTrunc (input (c * stride + i)) := by
  refine foldl_update_hit (fun i => i * 3 + c) _ stride b i hi ?_
  intro j hj hejj
  have hejj' : j * 3 + c = i * 3 + c := hejj
  omega

lemma chwStep_miss (input : ℕ → ℚ) (stride c : ℕ) (b : ℕ → ℕ) (k : ℕ)
    (hk : ∀ i, i < stride → i * 3 + c ≠ k) :
    chwStep input stride c b k = b k :=
  foldl_update_miss (fun i => i * 3 + c) _ stride b k hk

lemma chwBuf_loop_eval (input : ℕ → ℚ) (stride : ℕ) :
    ∀ (m : ℕ), m ≤ 3 → ∀ (b : ℕ → ℕ) (c i : ℕ), c < 3 → i < stride →
      (List.range m).foldl (fun b c => chwStep input stride c b) b (i * 3 + c)
        = if c < m then byteTrunc (input (c * stride + i)) else b (i * 3 + c) := by
  intro m
  induction m with
  | zero =>
      intro _ b c i hc hi
      simp
  | succ m ih =>
      intro hm b c i hc hi
      rw [List.range_succ, List.foldl_append]
      simp only [List.foldl_cons, List.foldl_nil]
      by_cases hcm : c = m
      · subst hcm
        rw [chwStep_hit input stride c _ i hi]
        simp
      · have hmiss : ∀ i', i' < stride → i' * 3 + m ≠ i * 3 + c := by
          intro i' hi' he
          omega
        rw [chwStep_miss input stride m _ _ hmiss]
        rw [ih (by omega) b c i hc hi]
        by_cases h2 : c < m
        · rw [if_pos h2, if_pos (by omega)]
        · rw [if_neg h2, if_neg (by omega)]

/-- Closed form of the chw_to_hwc buffer: cell `i*3+c` holds the clamped
    truncation of `input (c*stride+i)`. -/
lemma chwBuf_eval (input : ℕ → ℚ) (stride : ℕ) (c i : ℕ)
    (hc : c < 3) (hi : i < stride) :
    chwBuf input stride (i * 3 + c) = byteTrunc (input (c * stride + i)) := by
  unfold chwBuf
  rw [chwBuf_loop_eval input stride 3 le_rfl _ c i hc hi]
  rw [if_pos hc]

/-! ## softmax and argmax (mnist.cpp lines 38–49 and line 108)

The C++ softmax mutates its float sequence in place; the embedding returns
the new sequence instead.  `std::exp` is modelled by an arbitrary function
`e : ℚ → ℚ`; claims about softmax hold for every such function, or assume
exactly the analytic facts they need (positivity, strict monotonicity of
the exponential). -/

/-- The value `*std::max_element(begin, end)`: for a nonempty range, the
    greatest value of the range; for an empty range `std::max_element`
    returns the past-the-end iterator and dereferencing it is undefined
    behaviour, modelled as `none`. -/
def maxElem : List ℚ → Option ℚ
  | [] => none
  | x :: xs => some (xs.foldl (fun b y => if b < y then y else b) x)

/-- First loop of softmax: `sum += y[i] = std::exp(input[i] - rowmax);`.
    Threads the running sum and returns the list `y` together with the
    final sum. -/
def expPass (e : ℚ → ℚ) (rowmax : ℚ) : List ℚ → ℚ → List ℚ × ℚ
  | [], s => ([], s)
  | x :: xs, s =>
      let yi := e (x - rowmax)
      let r := expPass e rowmax xs (s + yi)
      (yi :: r.1, r.2)

/-- softmax (mnist.cpp lines 38–49): subtract the max, exponentiate,
    normalise by the sum.  `none` exactly when the input is empty (the
    initial `rowmax` read is then undefined behaviour). -/
def softmax (e : ℚ → ℚ) (input : List ℚ) : Option (List ℚ) :=
  match maxElem input with
  | none => none
  | some rowmax =>
      let p := expPass e rowmax input 0
      some (p.1.map (fun y => y / p.2))

/-- Scan of `std::max_element`, tracking the current best index and value;
    the best is replaced only on strictly greater values, so the first
    occurrence of the maximum wins. -/
def argmaxAux : List ℚ → ℕ → ℕ → ℚ → ℕ
  | [], _, bi, _ => bi
  | x :: xs, i, bi, bv =>
      if bv < x then argmaxAux xs (i + 1) i x else argmaxAux xs (i + 1) bi bv

/-- `std::distance(begin, std::max_element(begin, end))` (mnist.cpp line 108):
    index of the first occurrence of the maximum; `0` for the empty range
    (`std::max_element` then returns `end` itself, at distance 0). -/
def argmax : List ℚ → ℕ
  | [] => 0
  | x :: xs => argmaxAux xs 1 0 x

/-- The `max_element` fold yields a value of the list (or the seed) that
    bounds the seed and every element. -/
lemma maxFold_spec : ∀ (xs : List ℚ) (a : ℚ),
    (xs.foldl (fun b y => if b < y then y else b) a = a ∨
      xs.foldl (fun b y => if b < y then y else b) a ∈ xs) ∧
    a ≤ xs.foldl (fun b y => if b < y then y else b) a ∧
    ∀ y ∈ xs, y ≤ xs.foldl (fun b y => if b < y then y else b) a := by
  intro xs
  induction xs with
  | nil =>
      intro a
      refine ⟨Or.inl rfl, le_refl a, ?_⟩
      intro y hy
      simp at hy
  | cons x xs ih =>
      intro a
      have hstep : a ≤ (if a < x then x else a) ∧ x ≤ (if a < x then x else a) := by
        by_cases hax : a < x
        · rw [if_pos hax]
          exact ⟨le_of_lt hax, le_refl x⟩
        · rw [if_neg hax]
          exact ⟨le_refl a, le_of_not_lt hax⟩
      obtain ⟨hmem, hle, hall⟩ := ih (if a < x then x else a)
      refine ⟨?_, le_trans hstep.1 hle, ?_⟩
      · rcases hmem with hm | hm
        · by_cases hax : a < x
          · right
            rw [List.foldl_cons, hm, if_pos hax]
            exact List.mem_cons_self x xs
          · left
            rw [List.foldl_cons, hm, if_neg hax]
        · right
          rw [List.foldl_cons]
          exact List.mem_cons_of_mem x hm
      · intro y hy
        rcases List.mem_cons.mp hy with hyx | hyxs
        · subst hyx
          exact le_trans hstep.2 hle
        · exact hall y hyxs

/-- For a nonempty list, `maxElem` yields a member that bounds every
    element. -/
lemma maxElem_spec (x : ℚ) (xs : List ℚ) :
    ∃ m, maxElem (x :: xs) = some m ∧ m ∈ x :: xs ∧ ∀ y ∈ x :: xs, y ≤ m := by
  obtain ⟨hmem, hle, hall⟩ := maxFold_spec xs x
  refine ⟨_, rfl, ?_, ?_⟩
  · rcases hmem with hm | hm
    · rw [hm]
      exact List.mem_cons_self x xs
    · exact List.mem_cons_of_mem x hm
  · intro y hy
    rcases List.mem_cons.mp hy with hyx | hyxs
    · subst hyx
      exact hle
    · exact hall y hyxs

/-- The exponentiation loop computes the mapped list and adds its sum to
    the running accumulator. -/
lemma expPass_eq (e : ℚ → ℚ) (m : ℚ) : ∀ (l : List ℚ) (s : ℚ),
    expPass e m l s = (l.map (fun x => e (x - m)), s + (l.map (fun x => e (x - m))).sum) := by
  intro l
  induction l with
  | nil =>
      intro s
      simp [expPass]
  | cons x xs ih =>
      intro s
      simp only [expPass, ih, List.map_cons, List.sum_cons]
      refine Prod.ext rfl ?_
      simp only
      ring

/-- Closed form of softmax on a nonempty input: with `m` the maximum and
    `S` the sum of the shifted exponentials, the result is
    `map (fun x => e (x - m) / S)`. -/
lemma softmax_closed_form (e : ℚ → ℚ) (input : List ℚ) (hne : input ≠ []) :
    ∃ m, maxElem input = some m ∧ m ∈ input ∧ (∀ y ∈ input, y ≤ m) ∧
      softmax e input =
        some (input.map (fun x => e (x - m) / (input.map (fun x => e (x - m))).sum)) := by
  match input with
  | [] => exact absurd rfl hne
  | x :: xs =>
      obtain ⟨m, hmax, hmem, hall⟩ := maxElem_spec x xs
      refine ⟨m, hmax, hmem, hall, ?_⟩
      unfold softmax
      rw [hmax]
      simp only [expPass_eq, zero_add, List.map_map]
      rfl

/-- Dividing every element of a list divides its sum. -/
lemma sum_map_div (l : List ℚ) (c : ℚ) : (l.map (fun x => x / c)).sum = l.sum / c := by
  induction l with
  | nil => simp
  | cons x xs ih => simp [ih, add_div]

/-- A sum of positive rationals over a nonempty list is positive. -/
lemma sum_pos_of_pos (l : List ℚ) (hl : l ≠ []) (hpos : ∀ x ∈ l, 0 < x) : 0 < l.sum :=
  List.sum_pos l hpos hl

/-! ## A concrete strictly monotone positive function standing in for exp
in witness instantiations. -/

/-- A computable strictly monotone, everywhere-positive function on ℚ, used
    to instantiate the abstract exponential in witnesses. -/
def eSample (x : ℚ) : ℚ := if 0 ≤ x then x + 1 else 1 / (1 - x)

lemma eSample_pos : ∀ x : ℚ, 0 < eSample x := by
  intro x
  unfold eSample
  by_cases hx : 0 ≤ x
  · rw [if_pos hx]
    linarith
  · rw [if_neg hx]
    have h1 : (0 : ℚ) < 1 - x := by
      push_neg at hx
      linarith
    exact div_pos one_pos h1

lemma eSample_strictMono : StrictMono eSample := by
  intro a b hab
  unfold eSample
  by_cases ha : 0 ≤ a
  · have hb : 0 ≤ b := le_trans ha (le_of_lt hab)
    rw [if_pos ha, if_pos hb]
    linarith
  · by_cases hb : 0 ≤ b
    · rw [if_neg ha, if_pos hb]
      have ha' : a < 0 := not_le.mp ha
      have h1 : (1 : ℚ) < 1 - a := by linarith
      have h2 : 1 / (1 - a) < 1 := by
        rw [div_lt_one (by linarith)]
        exact h1
      linarith
    · rw [if_neg ha, if_neg hb]
      have ha' : a < 0 := not_le.mp ha
      have hb' : b < 0 := not_le.mp hb
      have h2 : (0 : ℚ) < 1 - b := by linarith
      have h3 : 1 - b < 1 - a := by linarith
      exact one_div_lt_one_div_of_lt h2 h3

/-! ## argmax: first occurrence of the maximum -/

/-- Invariant of the `max_element` scan: the result is either the incoming
    best index `bi` (and then nothing in `xs` beats the best value `bv`), or
    `i + k` for the first position `k` in `xs` that strictly beats `bv` and
    is a maximum of `xs` strictly greater than everything before it. -/
lemma argmaxAux_spec : ∀ (xs : List ℚ) (i bi : ℕ) (bv : ℚ),
    (argmaxAux xs i bi bv = bi ∧ ∀ y ∈ xs, y ≤ bv) ∨
    (∃ k, k < xs.length ∧ argmaxAux xs i bi bv = i + k ∧ bv < xs.getD k 0 ∧
      (∀ y ∈ xs, y ≤ xs.getD k 0) ∧ ∀ j, j < k → xs.getD j 0 < xs.getD k 0) := by
  intro xs
  induction xs with
  | nil =>
      intro i bi bv
      left
      refine ⟨rfl, ?_⟩
      intro y hy
      simp at hy
  | cons x xs ih =>
      intro i bi bv
      by_cases hbx : bv < x
      · rw [show argmaxAux (x :: xs) i bi bv = argmaxAux xs (i + 1) i x from by
          simp [argmaxAux, hbx]]
        rcases ih (i + 1) i x with ⟨heq, hall⟩ | ⟨k, hk, heq, hlt, hall, hfirst⟩
        · right
          refine ⟨0, by simp, by simpa using heq, by simpa using hbx, ?_, ?_⟩
          · intro y hy
            rcases List.mem_cons.mp hy with hyx | hyxs
            · subst hyx
              simp
            · simpa using hall y hyxs
          · intro j hj
            omega
        · right
          refine ⟨k + 1, by simpa using hk, ?_, ?_, ?_, ?_⟩
          · rw [heq]
            omega
          · rw [List.getD_cons_succ]
            exact lt_trans hbx hlt
          · intro y hy
            rw [List.getD_cons_succ]
            rcases List.mem_cons.mp hy with hyx | hyxs
            · subst hyx
              exact le_of_lt hlt
            · exact hall y hyxs
          · intro j hj
            rw [List.getD_cons_succ]
            match j with
            | 0 =>
                rw [List.getD_cons_zero]
                exact hlt
            | j + 1 =>
                rw [List.getD_cons_succ]
                exact hfirst j (by omega)
      · rw [show argmaxAux (x :: xs) i bi bv = argmaxAux xs (i + 1) bi bv from by
          simp [argmaxAux, hbx]]
        have hxbv : x ≤ bv := le_of_not_lt hbx
        rcases ih (i + 1) bi bv with ⟨heq, hall⟩ | ⟨k, hk, heq, hlt, hall, hfirst⟩
        · left
          refine ⟨heq, ?_⟩
          intro y hy
          rcases List.mem_cons.mp hy with hyx | hyxs
          · subst hyx
            exact hxbv
          · exact hall y hyxs
        · right
          refine ⟨k + 1, by simpa using hk, ?_, ?_, ?_, ?_⟩
          · rw [heq]
            omega
          · rw [List.getD_cons_succ]
            exact hlt
          · intro y hy
            rw [List.getD_cons_succ]
            rcases List.mem_cons.mp hy with hyx | hyxs
            · subst hyx
              exact le_trans hxbv (le_of_lt hlt)
            · exact hall y hyxs
          · intro j hj
            rw [List.getD_cons_succ]
            match j with
            | 0 =>
                rw [List.getD_cons_zero]
                exact lt_of_le_of_lt hxbv hlt
            | j + 1 =>
                rw [List.getD_cons_succ]
                exact hfirst j (by omega)

/-- The scan is invariant under mapping a strictly monotone function over
    the list and the best value. -/
lemma argmaxAux_map (f : ℚ → ℚ) (hf : StrictMono f) :
    ∀ (xs : List ℚ) (i bi : ℕ) (bv : ℚ),
      argmaxAux (xs.map f) i bi (f bv) = argmaxAux xs i bi bv := by
  intro xs
  induction xs with
  | nil =>
      intro i bi bv
      rfl
  | cons x xs ih =>
      intro i bi bv
      simp only [List.map_cons, argmaxAux, hf.lt_iff_lt]
      by_cases hbx : bv < x
      · rw [if_pos hbx, if_pos hbx]
        exact ih (i + 1) i x
      · rw [if_neg hbx, if_neg hbx]
        exact ih (i + 1) bi bv

/-- argmax is invariant under a strictly monotone map. -/
lemma argmax_map (f : ℚ → ℚ) (hf : StrictMono f) (l : List ℚ) :
    argmax (l.map f) = argmax l := by
  match l with
  | [] => rfl
  | x :: xs =>
      simp only [List.map_cons, argmax]
      exact argmaxAux_map f hf xs 1 0 x

/-- An in-bounds `getD` is a member of the list. -/
lemma getD_mem_of_lt (l : List ℚ) (j : ℕ) (hj : j < l.length) : l.getD j 0 ∈ l := by
  rw [List.getD_eq_getElem l 0 hj]
  exact List.getElem_mem hj

/-! ## Allocation behaviour of the converters (image_common.c lines 18–19
and 38–39)

Both converters call malloc and then `assert(output_data != NULL)`: when the
allocation fails the assert fails and the process aborts, before any cell of
the output is written.  The allocation outcome is made an explicit
parameter. -/

/-- Result of a C routine whose failure path is a failed `assert`: either a
    value, or the process aborts. -/
inductive AssertResult (α : Type) : Type
  | ok (val : α) : AssertResult α
  | assertAbort : AssertResult α

/-- hwc_to_chw with its allocation made explicit: `allocOk` says whether
    malloc returned non-NULL.  On allocation failure the
    `assert(output_data != NULL)` aborts the process before any write. -/
def hwc_to_chw_withAlloc (allocOk : Bool) (input : ℕ → ℕ) (h w : ℕ) :
    AssertResult (List ℚ) :=
  if allocOk then AssertResult.ok (hwc_to_chw input h w) else AssertResult.assertAbort

/-- chw_to_hwc with its allocation made explicit. -/
def chw_to_hwc_withAlloc (allocOk : Bool) (input : ℕ → ℚ) (h w : ℕ) :
    AssertResult (List ℕ) :=
  if allocOk then AssertResult.ok (chw_to_hwc input h w) else AssertResult.assertAbort

/-! ## MNIST::Run (mnist.cpp lines 74–111) -/

/-- Outcome of one MNIST::Run call. -/
structure RunOutcome where
  ret : ℤ                 -- the value Run returns
  inputImage : List ℚ     -- the member array input_image_ after the call
  results : List ℚ        -- the member array results_ after the call
  ranSoftmax : Bool       -- control reached the engine Run call and softmax
  freedBuffer : Bool      -- free(inp_image_buf) was executed

/-- MNIST::Run with its external collaborators as explicit parameters:
    * `gOrtNull` — whether the global API pointer g_ort is NULL;
    * `readStatus`, `height`, `width`, `buf` — return status and outputs of
      the external read_image_file (the decoded pixel buffer is a float
      array in the source);
    * `scores` — the contents the engine's Run leaves in results_ through
      the bound output tensor (a fixed [1,10] tensor in the program);
    * `inputImage0`, `results0` — prior contents of the member arrays.
    The result is `none` exactly when control reaches softmax over an empty
    score sequence (undefined behaviour; unreachable for the real length-10
    output tensor). -/
def MNIST.Run (e : ℚ → ℚ) (gOrtNull : Bool) (readStatus : ℤ) (height width : ℕ)
    (buf : ℕ → ℚ) (scores : List ℚ) (inputImage0 results0 : List ℚ) :
    Option RunOutcome :=
  if gOrtNull then some ⟨-1, inputImage0, results0, false, false⟩
  else if readStatus ≠ 0 then some ⟨-1, inputImage0, results0, false, false⟩
  else if height ≠ 28 ∨ width ≠ 28 then some ⟨-1, inputImage0, results0, false, true⟩
  else
    let inputImage := (List.range (height * width)).map (fun i => buf i / 255)
    match softmax e scores with
    | none => none
    | some out => some ⟨(argmax out : ℤ), inputImage, out, true, true⟩

/-! ## Claims -/

/-- Claim C1: for every H,W ≥ 1 and every byte buffer B of length 3·H·W
    (byte values lie in [0,255]), applying hwc_to_chw and then chw_to_hwc
    with the same H,W yields a byte buffer equal to B elementwise. -/
theorem C1_roundtrip (input : ℕ → ℕ) (h w : ℕ) (hh : 1 ≤ h) (hw : 1 ≤ w)
    (hb : ∀ k, k < 3 * (h * w) → input k ≤ 255) :
    chw_to_hwc (fun j => (hwc_to_chw input h w).getD j 0) h w
      = (List.range (3 * (h * w))).map input := by
  unfold chw_to_hwc
  refine List.map_congr_left ?_
  intro k hk
  have hk3 : k < 3 * (h * w) := List.mem_range.mp hk
  have hi : k / 3 < h * w := by omega
  have hc : k % 3 < 3 := by omega
  have hdec : k / 3 * 3 + k % 3 = k := by omega
  rw [← hdec]
  rw [chwBuf_eval _ (h * w) (k % 3) (k / 3) hc hi]
  show byteTrunc ((hwc_to_chw input h w).getD (k % 3 * (h * w) + k / 3) 0)
      = input (k / 3 * 3 + k % 3)
  unfold hwc_to_chw
  rw [getD_map_range _ _ _ _ (enc_lt hc hi)]
  rw [hwcBuf_eval input (h * w) (k % 3) (k / 3) hc hi]
  exact byteTrunc_natCast _ (hb _ (by omega))

/-- Witness for C1 at H = W = 1 and the constant byte buffer 7. -/
theorem C1_roundtrip_witness :
    (1 ≤ 1 ∧ 1 ≤ 1 ∧ ∀ k, k < 3 * (1 * 1) → (fun _ : ℕ => 7) k ≤ 255) ∧
    chw_to_hwc (fun j => (hwc_to_chw (fun _ : ℕ => 7) 1 1).getD j 0) 1 1
      = (List.range (3 * (1 * 1))).map (fun _ : ℕ => 7) :=
  ⟨⟨le_refl 1, le_refl 1, by decide⟩,
    C1_roundtrip (fun _ => 7) 1 1 (le_refl 1) (le_refl 1) (by decide)⟩

/-- Claim C2: for every H,W ≥ 1, hwc_to_chw produces a float output of
    length exactly 3·H·W with output[c·(H·W)+i] = float(input[i·3+c]) for
    every pixel i and channel c — the value is the exact cast of the byte,
    with no scaling or clamping. -/
theorem C2_hwc_to_chw_correct (input : ℕ → ℕ) (h w : ℕ) (hh : 1 ≤ h) (hw : 1 ≤ w) :
    (hwc_to_chw input h w).length = 3 * (h * w) ∧
    ∀ i c, i < h * w → c < 3 →
      (hwc_to_chw input h w).getD (c * (h * w) + i) 0 = ((input (i * 3 + c) : ℕ) : ℚ) := by
  constructor
  · unfold hwc_to_chw
    simp
  · intro i c hi hc
    unfold hwc_to_chw
    rw [getD_map_range _ _ _ _ (enc_lt hc hi)]
    exact hwcBuf_eval input (h * w) c i hc hi

/-- Witness for C2 at H = W = 1 and the identity byte buffer. -/
theorem C2_hwc_to_chw_correct_witness :
    (1 ≤ 1 ∧ 1 ≤ 1) ∧
    ((hwc_to_chw (fun k => k) 1 1).length = 3 * (1 * 1) ∧
      ∀ i c, i < 1 * 1 → c < 3 →
        (hwc_to_chw (fun k => k) 1 1).getD (c * (1 * 1) + i) 0
          = (((fun k => k) (i * 3 + c) : ℕ) : ℚ)) :=
  ⟨⟨le_refl 1, le_refl 1⟩,
    C2_hwc_to_chw_correct (fun k => k) 1 1 (le_refl 1) (le_refl 1)⟩

/-- Claim C3: for every H,W ≥ 1, chw_to_hwc produces a byte output of length
    exactly 3·H·W where output[i·3+c] is the 8-bit truncation (floor) of
    input[c·(H·W)+i], except that a value strictly below 0 or strictly above
    255 is mapped to byte 0. -/
theorem C3_chw_to_hwc_correct (input : ℕ → ℚ) (h w : ℕ) (hh : 1 ≤ h) (hw : 1 ≤ w) :
    (chw_to_hwc input h w).length = 3 * (h * w) ∧
    ∀ i c, i < h * w → c < 3 →
      (chw_to_hwc input h w).getD (i * 3 + c) 0 =
        (if input (c * (h * w) + i) < 0 ∨ 255 < input (c * (h * w) + i) then 0
          else Int.toNat ⌊input (c * (h * w) + i)⌋) := by
  constructor
  · unfold chw_to_hwc
    simp
  · intro i c hi hc
    unfold chw_to_hwc
    have hlt : i * 3 + c < 3 * (h * w) := by
      have h1 := enc_lt hi hc
      omega
    rw [getD_map_range _ _ _ _ hlt]
    rw [chwBuf_eval input (h * w) c i hc hi]
    exact byteTrunc_eq_ite _

/-- Witness for C3 at H = W = 1 and a buffer holding the out-of-range value
    300 (mapped to byte 0, not 255). -/
theorem C3_chw_to_hwc_correct_witness :
    (1 ≤ 1 ∧ 1 ≤ 1) ∧
    ((chw_to_hwc (fun _ : ℕ => 300) 1 1).length = 3 * (1 * 1) ∧
      ∀ i c, i < 1 * 1 → c < 3 →
        (chw_to_hwc (fun _ : ℕ => 300) 1 1).getD (i * 3 + c) 0 =
          (if (fun _ : ℕ => (300 : ℚ)) (c * (1 * 1) + i) < 0 ∨
              255 < (fun _ : ℕ => (300 : ℚ)) (c * (1 * 1) + i) then 0
            else Int.toNat ⌊(fun _ : ℕ => (300 : ℚ)) (c * (1 * 1) + i)⌋)) :=
  ⟨⟨le_refl 1, le_refl 1⟩,
    C3_chw_to_hwc_correct (fun _ => 300) 1 1 (le_refl 1) (le_refl 1)⟩

/-- Claim C4: on every nonempty score sequence, softmax follows exactly the
    stable algorithm: m is the maximum of the entries, y_i = exp(scores_i - m),
    sum = Σ y_i, and every entry becomes y_i / sum.  (The C++ version
    overwrites the sequence in place; the embedding returns the new
    sequence.) -/
theorem C4_softmax_algorithm (e : ℚ → ℚ) (input : List ℚ) (hne : input ≠ []) :
    ∃ m, maxElem input = some m ∧ m ∈ input ∧ (∀ y ∈ input, y ≤ m) ∧
      softmax e input =
        some (input.map (fun x => e (x - m) / (input.map (fun x => e (x - m))).sum)) :=
  softmax_closed_form e input hne

/-- Witness for C4 on the scores [1, 2] with eSample as the exponential. -/
theorem C4_softmax_algorithm_witness :
    ([(1 : ℚ), 2] ≠ []) ∧
    ∃ m, maxElem [(1 : ℚ), 2] = some m ∧ m ∈ [(1 : ℚ), 2] ∧
      (∀ y ∈ [(1 : ℚ), 2], y ≤ m) ∧
      softmax eSample [(1 : ℚ), 2] =
        some ([(1 : ℚ), 2].map
          (fun x => eSample (x - m) / ([(1 : ℚ), 2].map (fun x => eSample (x - m))).sum)) :=
  ⟨by decide, C4_softmax_algorithm eSample [1, 2] (by decide)⟩

/-- Claim C5: whenever softmax yields a result sequence, argmax of that
    result equals argmax of the raw scores — softmax preserves the position
    of the (first) maximum, for any strictly monotone positive
    exponential. -/
theorem C5_argmax_softmax (e : ℚ → ℚ) (he : StrictMono e) (hpos : ∀ x, 0 < e x)
    (input out : List ℚ) (hout : softmax e input = some out) :
    argmax out = argmax input := by
  match input with
  | [] => simp [softmax, maxElem] at hout
  | x :: xs =>
      obtain ⟨m, hmax, hmem, hall, heq⟩ := softmax_closed_form e (x :: xs) (by simp)
      have hout2 : out = (x :: xs).map
          (fun t => e (t - m) / ((x :: xs).map (fun t => e (t - m))).sum) :=
        Option.some.inj (hout.symm.trans heq)
      have hS : 0 < ((x :: xs).map (fun t => e (t - m))).sum := by
        refine sum_pos_of_pos _ (by simp) ?_
        intro v hv
        obtain ⟨t, ht, rfl⟩ := List.mem_map.mp hv
        exact hpos _
      have hfmono : StrictMono
          (fun t : ℚ => e (t - m) / ((x :: xs).map (fun t => e (t - m))).sum) := by
        intro a b hab
        have h1 : e (a - m) < e (b - m) := he (by linarith)
        have h2 := mul_lt_mul_of_pos_right h1 (inv_pos.mpr hS)
        simpa [div_eq_mul_inv] using h2
      rw [hout2]
      exact argmax_map _ hfmono (x :: xs)

/-- Witness for C5 on the scores [1, 1, 3] (softmax yields [1/5, 1/5, 3/5]
    under eSample; both argmax values are 2). -/
theorem C5_argmax_softmax_witness :
    StrictMono eSample ∧ (∀ x, 0 < eSample x) ∧
    softmax eSample [(1 : ℚ), 1, 3] = some [1 / 5, 1 / 5, 3 / 5] ∧
    argmax [(1 : ℚ) / 5, 1 / 5, 3 / 5] = argmax [(1 : ℚ), 1, 3] :=
  ⟨eSample_strictMono, eSample_pos, by norm_num [softmax, maxElem, expPass, eSample],
    C5_argmax_softmax eSample eSample_strictMono eSample_pos
      [1, 1, 3] [1 / 5, 1 / 5, 3 / 5] (by norm_num [softmax, maxElem, expPass, eSample])⟩

/-- Claim C6: on a nonempty score sequence, argmax returns an in-range index
    holding a maximum value, and every entry before it is strictly smaller —
    the first occurrence of the maximum wins a tie. -/
theorem C6_argmax_first_max (l : List ℚ) (hne : l ≠ []) :
    argmax l < l.length ∧
    (∀ j, j < l.length → l.getD j 0 ≤ l.getD (argmax l) 0) ∧
    (∀ j, j < argmax l → l.getD j 0 < l.getD (argmax l) 0) := by
  match l with
  | [] => exact absurd rfl hne
  | x :: xs =>
      rcases argmaxAux_spec xs 1 0 x with ⟨heq, hall⟩ | ⟨k, hk, heq, hlt, hall, hfirst⟩
      · have hres : argmax (x :: xs) = 0 := heq
        rw [hres]
        refine ⟨by simp, ?_, ?_⟩
        · intro j hj
          rw [List.getD_cons_zero]
          match j with
          | 0 => rw [List.getD_cons_zero]
          | j + 1 =>
              rw [List.getD_cons_succ]
              exact hall _ (getD_mem_of_lt xs j (by simpa using hj))
        · intro j hj
          omega
      · have hres : argmax (x :: xs) = k + 1 := by
          have h1 : argmax (x :: xs) = 1 + k := heq
          omega
        rw [hres, List.getD_cons_succ]
        refine ⟨by simpa using hk, ?_, ?_⟩
        · intro j hj
          match j with
          | 0 =>
              rw [List.getD_cons_zero]
              exact le_of_lt hlt
          | j + 1 =>
              rw [List.getD_cons_succ]
              exact hall _ (getD_mem_of_lt xs j (by simpa using hj))
        · intro j hj
          match j with
          | 0 =>
              rw [List.getD_cons_zero]
              exact hlt
          | j + 1 =>
              rw [List.getD_cons_succ]
              exact hfirst j (by omega)

/-- Witness for C6 on the scores [1, 3, 3, 2] (argmax is 1, the first of the
    two tied maxima). -/
theorem C6_argmax_first_max_witness :
    ([(1 : ℚ), 3, 3, 2] ≠ []) ∧
    (argmax [(1 : ℚ), 3, 3, 2] < ([(1 : ℚ), 3, 3, 2]).length ∧
      (∀ j, j < ([(1 : ℚ), 3, 3, 2]).length →
        ([(1 : ℚ), 3, 3, 2]).getD j 0 ≤ ([(1 : ℚ), 3, 3, 2]).getD (argmax [(1 : ℚ), 3, 3, 2]) 0) ∧
      (∀ j, j < argmax [(1 : ℚ), 3, 3, 2] →
        ([(1 : ℚ), 3, 3, 2]).getD j 0 < ([(1 : ℚ), 3, 3, 2]).getD (argmax [(1 : ℚ), 3, 3, 2]) 0)) :=
  ⟨by decide, C6_argmax_first_max [1, 3, 3, 2] (by decide)⟩

/-- Claim C7 counterexample: on the empty score sequence neither function
    fails with an InvalidInput error: softmax has no defined result at all —
    the code dereferences std::max_element of an empty range, which is
    undefined behaviour — and argmax returns the ordinary index 0. -/
theorem C7_empty_counterexample : softmax eSample [] = none ∧ argmax [] = 0 :=
  ⟨rfl, rfl⟩

/-- Claim C7 (amended): applied to an empty score sequence, softmax and
    argmax do not fail with an InvalidInput error: softmax reads the maximum
    of an empty sequence (undefined behaviour, modelled as the absence of a
    result) and argmax returns index 0 as if it were an answer; no error
    value exists in either function.  In the program both are only applied
    to the fixed length-10 results array, so the empty case never arises. -/
theorem C7_empty_no_error (e : ℚ → ℚ) : softmax e [] = none ∧ argmax [] = 0 :=
  ⟨rfl, rfl⟩

/-- Claim C8 counterexample: when malloc returns NULL, hwc_to_chw aborts the
    process through its failed assert instead of reporting an explicit
    error value. -/
theorem C8_alloc_counterexample :
    hwc_to_chw_withAlloc false (fun _ => 0) 1 1 = AssertResult.assertAbort ∧
    chw_to_hwc_withAlloc false (fun _ => 0) 1 1 = AssertResult.assertAbort :=
  ⟨rfl, rfl⟩

/-- Claim C8 (amended): on allocation failure both converters abort the
    process via a failed assert — no explicit error value is signalled —
    and no partially-initialized buffer is ever returned: the abort precedes
    every write, and on a successful allocation the fully-written buffer is
    returned. -/
theorem C8_alloc_behaviour (inputB : ℕ → ℕ) (inputF : ℕ → ℚ) (h w : ℕ) :
    hwc_to_chw_withAlloc false inputB h w = AssertResult.assertAbort ∧
    chw_to_hwc_withAlloc false inputF h w = AssertResult.assertAbort ∧
    hwc_to_chw_withAlloc true inputB h w = AssertResult.ok (hwc_to_chw inputB h w) ∧
    chw_to_hwc_withAlloc true inputF h w = AssertResult.ok (chw_to_hwc inputF h w) :=
  ⟨rfl, rfl, rfl, rfl⟩

/-- Claim C9: on a nonempty score sequence, every softmax entry lies in
    [0,1] and the entries sum to 1 — exactly, in the rational model, hence
    within the claimed 1e-5 tolerance — for any positive exponential. -/
theorem C9_softmax_distribution (e : ℚ → ℚ) (hpos : ∀ x, 0 < e x)
    (input out : List ℚ) (hne : input ≠ []) (hout : softmax e input = some out) :
    (∀ v ∈ out, 0 ≤ v ∧ v ≤ 1) ∧ |out.sum - 1| ≤ 1 / 100000 := by
  obtain ⟨m, hmax, hmem, hall, heq⟩ := softmax_closed_form e input hne
  have hout2 : out = input.map
      (fun x => e (x - m) / (input.map (fun x => e (x - m))).sum) :=
    Option.some.inj (hout.symm.trans heq)
  have hmapne : input.map (fun x => e (x - m)) ≠ [] := by
    intro hmapnil
    exact hne (List.map_eq_nil_iff.mp hmapnil)
  have hS : 0 < (input.map (fun x => e (x - m))).sum := by
    refine sum_pos_of_pos _ hmapne ?_
    intro v hv
    obtain ⟨t, ht, rfl⟩ := List.mem_map.mp hv
    exact hpos _
  constructor
  · intro v hv
    rw [hout2] at hv
    obtain ⟨t, ht, rfl⟩ := List.mem_map.mp hv
    constructor
    · exact le_of_lt (div_pos (hpos _) hS)
    · rw [div_le_one hS]
      refine List.single_le_sum ?_ _ ?_
      · intro y hy
        obtain ⟨u, hu, rfl⟩ := List.mem_map.mp hy
        exact le_of_lt (hpos _)
      · exact List.mem_map_of_mem _ ht
  · rw [hout2]
    have h1 : input.map (fun x => e (x - m) / (input.map (fun x => e (x - m))).sum)
        = (input.map (fun x => e (x - m))).map
            (fun y => y / (input.map (fun x => e (x - m))).sum) := by
      rw [List.map_map]
      rfl
    rw [h1, sum_map_div, div_self (ne_of_gt hS)]
    norm_num

/-- Witness for C9 on the scores [0] (softmax yields [1] under eSample). -/
theorem C9_softmax_distribution_witness :
    (∀ x, 0 < eSample x) ∧ ([(0 : ℚ)] ≠ []) ∧
    softmax eSample [(0 : ℚ)] = some [1] ∧
    ((∀ v ∈ [(1 : ℚ)], 0 ≤ v ∧ v ≤ 1) ∧ |([(1 : ℚ)]).sum - 1| ≤ 1 / 100000) :=
  ⟨eSample_pos, by decide, by norm_num [softmax, maxElem, expPass, eSample],
    C9_softmax_distribution eSample eSample_pos [0] [1] (by decide)
      (by norm_num [softmax, maxElem, expPass, eSample])⟩

/-- Claim C10 counterexample: when read_image_file fails (status 1), Run
    returns -1 with inference and softmax not reached and results_
    unchanged, but it does NOT free the pixel buffer — no free executes on
    that path, contradicting the claim for the read-failure case. -/
theorem C10_read_fail_counterexample :
    MNIST.Run eSample false 1 0 0 (fun _ => 0) [] [] [] =
      some ⟨-1, [], [], false, false⟩ :=
  rfl

/-- Claim C10 (amended): whenever the read fails or the decoded image is not
    28×28, Run returns -1 — not a valid class index in [0,10) — before
    invoking inference or softmax, leaving input_image_ and results_
    unchanged; the decoded pixel buffer is freed in the dimension-mismatch
    case but not in the read-failure case (where no decoded buffer was
    produced and no free runs). -/
theorem C10_early_return (e : ℚ → ℚ) (readStatus : ℤ) (height width : ℕ)
    (buf : ℕ → ℚ) (scores inputImage0 results0 : List ℚ)
    (hfail : readStatus ≠ 0 ∨ height ≠ 28 ∨ width ≠ 28) :
    ∃ r, MNIST.Run e false readStatus height width buf scores inputImage0 results0
        = some r ∧
      r.ret = -1 ∧ ¬(0 ≤ r.ret ∧ r.ret < 10) ∧ r.ranSoftmax = false ∧
      r.inputImage = inputImage0 ∧ r.results = results0 ∧
      (r.freedBuffer = true ↔ readStatus = 0) := by
  by_cases hrs : readStatus = 0
  · have hdim : height ≠ 28 ∨ width ≠ 28 := by
      rcases hfail with h1 | h2
      · exact absurd hrs h1
      · exact h2
    refine ⟨⟨-1, inputImage0, results0, false, true⟩, ?_, rfl, by norm_num, rfl, rfl, rfl, ?_⟩
    · unfold MNIST.Run
      rw [if_neg (by simp)]
      rw [if_neg (by simpa using hrs)]
      rw [if_pos hdim]
    · simp [hrs]
  · refine ⟨⟨-1, inputImage0, results0, false, false⟩, ?_, rfl, by norm_num, rfl, rfl, rfl, ?_⟩
    · unfold MNIST.Run
      rw [if_neg (by simp)]
      rw [if_pos hrs]
    · simp [hrs]

/-- Witness for C10 (amended) at a successful read of a 27×28 image. -/
theorem C10_early_return_witness :
    ((0 : ℤ) ≠ 0 ∨ (27 : ℕ) ≠ 28 ∨ (28 : ℕ) ≠ 28) ∧
    ∃ r, MNIST.Run eSample false 0 27 28 (fun _ => 0) [] [] [] = some r ∧
      r.ret = -1 ∧ ¬(0 ≤ r.ret ∧ r.ret < 10) ∧ r.ranSoftmax = false ∧
      r.inputImage = [] ∧ r.results = [] ∧
      (r.freedBuffer = true ↔ (0 : ℤ) = 0) :=
  ⟨by decide,
    C10_early_return eSample 0 27 28 (fun _ => 0) [] [] [] (by decide)⟩
